import Mathlib

/-!
Verification development for the pyhartig relational mapping algebra.

The Python sources embedded here are:
  * `src/pyhartig/functions/builtins.py`      (`_to_string`, `to_iri`, `to_literal`, `concat`)
  * `src/pyhartig/operators/SourceOperator.py` (`SourceOperator.execute`)
  * `src/pyhartig/operators/ExtendOperator.py` (`ExtendOperator.execute`)
  * `src/pyhartig/operators/UnionOperator.py`  (`UnionOperator.execute`)
  * `src/pyhartig/operators/Operator.py`       (the `Operator` base contract)

The repository modules `pyhartig/algebra/Terms.py`, `pyhartig/algebra/Tuple.py`,
`pyhartig/expressions/*` and `pyhartig/operators/ProjectOperator.py` are used by
the sources and tests above but their files are not available; the corresponding
definitions below are modelled from the specification (each such definition says
so in its doc comment).

Machine model: Python values are embedded as an inductive `Value`; mapping
tuples (Python `dict` / `MappingTuple`) as association lists with dict update
semantics; external collaborators (`urllib.parse.urljoin`, the JSONPath engine)
are taken as function parameters.
-/

namespace Pyhartig

/-- The xsd:string datatype IRI used throughout `builtins.py`. -/
def xsdString : String := "http://www.w3.org/2001/XMLSchema#string"

/-- Modelled from the spec: the RDF term variants of `pyhartig/algebra/Terms.py`
(not available in the sources): an IRI wrapping its identifier string, a
Literal as a pair of lexical form and optional datatype IRI, and a BlankNode
wrapping an opaque identifier; equality is structural on all three. -/
inductive Term where
  | iri (value : String)
  | lit (lexicalForm : String) (datatypeIri : Option String)
  | blank (id : String)
  deriving DecidableEq, Repr

/-- Modelled from the spec: the Value domain (`Value` type alias in
`builtins.py`, sentinel from `pyhartig/algebra/Tuple.py`): native string,
integer and boolean scalars, Python `None`, the distinguished Undefined
sentinel ε (a structural singleton distinct from `None`), and RDF terms. -/
inductive Value where
  | str (s : String)
  | int (n : Int)
  | bool (b : Bool)
  | null
  | eps
  | term (t : Term)
  deriving DecidableEq, Repr

/-- Modelled from the spec: the natural string representation `str(value)`
used by `to_literal` for values that are neither `Literal` nor `IRI`
(the `__str__` of the term classes is not available in the sources; a
BlankNode renders as its identifier). -/
def pyStr : Value → String
  | Value.str s => s
  | Value.int n => toString n
  | Value.bool b => if b then "True" else "False"
  | Value.null => "None"
  | Value.eps => "EPSILON"
  | Value.term (Term.iri s) => s
  | Value.term (Term.lit lf _) => lf
  | Value.term (Term.blank id) => id

/-- Embeds `_to_string` of `builtins.py`: a native string passes through, a
Literal yields its lexical form only when its datatype is exactly the
xsd:string IRI, and every other shape yields `None` (here `Option.none`). -/
def _to_string : Value → Option String
  | Value.str s => Option.some s
  | Value.term (Term.lit lf dt) =>
      if dt = Option.some xsdString then Option.some lf else Option.none
  | _ => Option.none

/-- Embeds `to_iri` of `builtins.py`. The external call
`urllib.parse.urljoin(base, lex)` is taken as the parameter `resolver`;
the Python default `base=None` and an explicitly supplied empty string are
both falsy under the code's `if base:` guard, so `base` is embedded as a
`String` whose empty value means "no base supplied". -/
def to_iri (resolver : String → String → String) (value : Value) (base : String) : Value :=
  if value = Value.null ∨ value = Value.eps then Value.eps
  else
    match _to_string value with
    | Option.none => Value.eps
    | Option.some lex =>
        if lex.data.contains ':' then Value.term (Term.iri lex)
        else if base ≠ "" then Value.term (Term.iri (resolver base lex))
        else Value.eps

/-- Embeds `to_literal` of `builtins.py`: ε and `None` degrade to ε; a
Literal is re-typed from its lexical form, an IRI from its identifier, and
any other value from its natural string representation; the result always
carries the supplied datatype. -/
def to_literal (value : Value) (datatype : String) : Value :=
  if value = Value.null ∨ value = Value.eps then Value.eps
  else
    let lex :=
      match value with
      | Value.term (Term.lit lf _) => lf
      | Value.term (Term.iri s) => s
      | v => pyStr v
    Value.term (Term.lit lex (Option.some datatype))

/-- Embeds `concat` of `builtins.py`: both operands go through `_to_string`;
if either extraction fails the result is ε, otherwise an xsd:string Literal
holding the concatenation. -/
def concat (val1 val2 : Value) : Value :=
  match _to_string val1, _to_string val2 with
  | Option.some s1, Option.some s2 =>
      Value.term (Term.lit (s1 ++ s2) (Option.some xsdString))
  | _, _ => Value.eps

/-- Modelled from the spec: a MappingTuple (`pyhartig/algebra/Tuple.py`, not
available in the sources) is a keys-unique mapping from attribute name to
Value; it is embedded as an association list in insertion order, matching a
Python `dict`. -/
abbrev Tup : Type := List (String × Value)

/-- Dict-style lookup: the value bound to `k`, if present. -/
def lookupKey : Tup → String → Option Value
  | [], _ => Option.none
  | (k', v) :: rest, k => if k' = k then Option.some v else lookupKey rest k

/-- Dict-style membership test (`k in t`). -/
def containsKey (t : Tup) (k : String) : Bool :=
  (lookupKey t k).isSome

/-- Modelled from the spec: `MappingTuple.__setitem__` — dict assignment
`t[k] = v`, replacing the binding in place when `k` is already present and
appending it otherwise. -/
def setKey : Tup → String → Value → Tup
  | [], k, v => [(k, v)]
  | (k', v') :: rest, k, v =>
      if k' = k then (k, v) :: rest else (k', v') :: setKey rest k v

/-- Modelled from the spec: the copying constructor `MappingTuple(row)` used
by Extend; it produces a fresh tuple with the same bindings, which in the
pure embedding is the same association list. -/
def mtCopy (t : Tup) : Tup := t

/-- Modelled from the spec: the expression sub-language of
`pyhartig/expressions/` (not available in the sources): Constant, Reference
and FunctionCall over an arbitrary function on Values. -/
inductive Expr where
  | const (v : Value)
  | ref (name : String)
  | call (fn : List Value → Value) (args : List Expr)

mutual

/-- Modelled from the spec: `Expression.evaluate(tuple)` — a Constant ignores
the tuple, a Reference returns the bound value or ε when the attribute is
absent, and a FunctionCall evaluates its arguments in order and applies its
function (the Python guard converting raised exceptions to ε has no
counterpart here because Lean functions are total). -/
def evalExpr : Expr → Tup → Value
  | Expr.const v, _ => v
  | Expr.ref name, t => (lookupKey t name).getD Value.eps
  | Expr.call fn args, t => fn (evalArgs args t)

/-- Evaluation of a FunctionCall's argument list, in argument order. -/
def evalArgs : List Expr → Tup → List Value
  | [], _ => []
  | e :: es, t => evalExpr e t :: evalArgs es t

end

/-- Embeds `itertools.product(*values_lists)` restricted to lists: all
combinations picking one element per factor list, leftmost factor varying
slowest, as iterated by `SourceOperator.execute`. -/
def listProd : List (List Value) → List (List Value)
  | [] => [[]]
  | l :: ls => l.flatMap (fun x => (listProd ls).map (fun comb => x :: comb))

/-- Embeds `SourceOperator.execute`. The abstract methods `_apply_iterator`
and `_apply_extraction` (implemented by external query engines) are taken as
the parameters `applyIterator` and `applyExtraction`; a row
`dict(zip(keys, combination))` becomes the association list
`List.zip keys combination` (keys are unique because `attribute_mappings`
is a Python dict). -/
def sourceExecute {Doc Ctx : Type} (applyIterator : Doc → String → List Ctx)
    (applyExtraction : Ctx → String → List Value)
    (sourceData : Doc) (iteratorQuery : String)
    (attributeMappings : List (String × String)) : List Tup :=
  let contexts := applyIterator sourceData iteratorQuery
  contexts.flatMap (fun context =>
    let keys := attributeMappings.map Prod.fst
    let valuesLists := attributeMappings.map (fun p => applyExtraction context p.snd)
    (listProd valuesLists).map (fun combination => List.zip keys combination))

/-- Embeds `ExtendOperator.execute`, with the parent operator represented by
its materialized output `parentRows` (the only capability the `Operator`
contract exposes): each row is copied, the expression is evaluated against
the ORIGINAL row, and the new attribute is assigned on the copy. -/
def extendExecute (parentRows : List Tup) (newAttribute : String) (expression : Expr) : List Tup :=
  parentRows.map (fun row => setKey (mtCopy row) newAttribute (evalExpr expression row))

/-- Embeds `UnionOperator`, with each child operator represented by its
materialized output; the constructor stores the child list unvalidated. -/
structure UnionOperator where
  operators : List (List Tup)

/-- Embeds `UnionOperator.execute`: start from an empty result and
`extend` (append) each child's output in list order. -/
def UnionOperator.execute (u : UnionOperator) : List Tup :=
  u.operators.foldl (fun merged r => merged ++ r) []

/-- Modelled from the spec: the restriction `t[P]` built by the Project
operator (`pyhartig/operators/ProjectOperator.py`, not available in the
sources) — exactly the key/value pairs of `t` whose key lies in `P`. -/
def restrictTup (t : Tup) (attrs : List String) : Tup :=
  t.filter (fun kv => attrs.contains kv.fst)

/-- The attributes of `P` absent from tuple `t`, in `P` order. -/
def missingAttrs (attrs : List String) (t : Tup) : List String :=
  attrs.filter (fun a => containsKey t a = false)

/-- Modelled from the spec: `ProjectOperator.execute` — validate each tuple
of the parent relation in emission order; the first tuple missing a
requested attribute raises a structural error naming all attributes of `P`
absent from that tuple, otherwise every tuple is restricted to `P`,
preserving order and multiplicity. -/
def projectExecute (parentRows : List Tup) (attrs : List String) : Except (List String) (List Tup) :=
  match parentRows with
  | [] => Except.ok []
  | t :: ts =>
      match missingAttrs attrs t with
      | [] =>
          match projectExecute ts attrs with
          | Except.ok rest => Except.ok (restrictTup t attrs :: rest)
          | Except.error e => Except.error e
      | m => Except.error m

/-- Operator trees over the embedded algebra, for the claims that speak about
operator objects rather than materialized relations. `base` stands for an
arbitrary operator abstracted by its `execute()` output (for instance a
concrete Source realization). -/
inductive Op where
  | base (rows : List Tup)
  | ext (parent : Op) (newAttribute : String) (expression : Expr)

/-- Pull-based evaluation of an operator tree: a base operator returns its
relation, an Extend node applies `extendExecute` to its parent's output. -/
def Op.execute : Op → List Tup
  | Op.base rows => rows
  | Op.ext parent a e => extendExecute (Op.execute parent) a e

/-- Modelled from the spec: the fluent chaining convenience
`Operator.extend(name, expr)` (used by the repository's tests but absent
from the available `Operator.py`): it returns a new Extend operator wrapping
the receiver as its parent. -/
def Op.extend (self : Op) (name : String) (expression : Expr) : Op :=
  Op.ext self name expression

/-! Helper lemmas about the Cartesian product and association lists. -/

/-- Every combination drawn from `listProd ls` picks one value per factor. -/
lemma listProd_mem_length {ls : List (List Value)} {comb : List Value}
    (h : comb ∈ listProd ls) : comb.length = ls.length := by
  induction ls generalizing comb with
  | nil => simp [listProd] at h; simp [h]
  | cons l ls ih =>
      simp only [listProd, List.mem_flatMap, List.mem_map] at h
      obtain ⟨x, -, comb', hc', rfl⟩ := h
      simp [ih hc']

/-- The Cartesian product has as many combinations as the product of the
factor sizes. -/
lemma listProd_length (ls : List (List Value)) :
    (listProd ls).length = (ls.map List.length).prod := by
  induction ls with
  | nil => simp [listProd]
  | cons l ls ih =>
      simp [listProd, List.length_flatMap, Function.comp_def, ih, Nat.mul_comm]

/-- A product with an empty factor is empty. -/
lemma listProd_eq_nil {ls : List (List Value)} {l : List Value}
    (hmem : l ∈ ls) (hnil : l = []) : listProd ls = [] := by
  induction ls with
  | nil => simp at hmem
  | cons a ls ih =>
      rcases List.mem_cons.mp hmem with rfl | h
      · simp [listProd, hnil]
      · simp [listProd, ih h]

/-- Duplicate-free factors give a duplicate-free product. -/
lemma listProd_nodup {ls : List (List Value)} (h : ∀ l ∈ ls, l.Nodup) :
    (listProd ls).Nodup := by
  induction ls with
  | nil => simp [listProd]
  | cons l ls ih =>
      have hl : l.Nodup := h l (List.mem_cons_self l ls)
      have hrest : (listProd ls).Nodup := ih (fun x hx => h x (List.mem_cons_of_mem l hx))
      refine List.nodup_flatMap.mpr ⟨fun x _ => hrest.map ?_, ?_⟩
      · intro a b hab
        exact (List.cons.injEq x a x b).mp hab |>.2
      · refine hl.imp ?_
        intro a b hne
        intro s hsa hsb
        simp only [Function.onFun, List.mem_map] at hsa hsb
        obtain ⟨ca, -, rfl⟩ := hsa
        obtain ⟨cb, -, hcb⟩ := hsb
        exact hne ((List.cons.injEq b cb a ca).mp hcb |>.1).symm

/-- Zipping a fixed key list with two value lists of matching length is
injective in the value list. -/
lemma zip_right_injective :
    ∀ (keys : List String) (l₁ l₂ : List Value),
      l₁.length = keys.length → l₂.length = keys.length →
      List.zip keys l₁ = List.zip keys l₂ → l₁ = l₂ := by
  intro keys
  induction keys with
  | nil =>
      intro l₁ l₂ h1 h2 _
      cases l₁ <;> cases l₂ <;> simp_all
  | cons a keys ih =>
      intro l₁ l₂ h1 h2 hz
      cases l₁ with
      | nil => simp at h1
      | cons x xs =>
          cases l₂ with
          | nil => simp at h2
          | cons y ys =>
              simp only [List.zip_cons_cons, List.cons.injEq, Prod.mk.injEq, true_and] at hz
              obtain ⟨hxy, hz'⟩ := hz
              simp only [List.length_cons, Nat.add_right_cancel_iff] at h1 h2
              exact hxy ▸ congrArg (y :: ·) (ih xs ys h1 h2 hz')

/-- Dict assignment binds the assigned key to the assigned value. -/
lemma lookupKey_setKey_self (t : Tup) (a : String) (v : Value) :
    lookupKey (setKey t a v) a = Option.some v := by
  induction t with
  | nil => simp [setKey, lookupKey]
  | cons kv rest ih =>
      by_cases h : kv.fst = a
      · simp [setKey, lookupKey, h]
      · simpa [setKey, lookupKey, h] using ih

/-- Dict assignment leaves every other key's binding unchanged. -/
lemma lookupKey_setKey_ne (t : Tup) (a k : String) (v : Value) (h : k ≠ a) :
    lookupKey (setKey t a v) k = lookupKey t k := by
  have hne : a ≠ k := fun hh => h hh.symm
  induction t with
  | nil => simp [setKey, lookupKey, hne]
  | cons kv rest ih =>
      by_cases hk : kv.fst = a
      · simp [setKey, lookupKey, hk, hne]
      · by_cases hk2 : kv.fst = k <;> simp [setKey, lookupKey, hk, hk2, ih, h, hne]

/-- Assigning a key absent from the tuple appends the new binding after the
existing ones. -/
lemma setKey_of_not_containsKey (t : Tup) (a : String) (v : Value)
    (h : containsKey t a = false) : setKey t a v = t ++ [(a, v)] := by
  induction t with
  | nil => simp [setKey]
  | cons kv rest ih =>
      simp only [containsKey, lookupKey] at h
      by_cases hk : kv.fst = a
      · simp [hk] at h
      · simp only [containsKey] at ih
        simp [setKey, hk, ih (by simpa [hk] using h)]

/-- Left fold of append over a list of relations is appending their
concatenation. -/
lemma foldl_append_eq_flatten (rs : List (List Tup)) (acc : List Tup) :
    List.foldl (fun merged r => merged ++ r) acc rs = acc ++ rs.flatten := by
  induction rs generalizing acc with
  | nil => simp
  | cons r rs ih => simp [ih, List.append_assoc]

/-! Claim theorems. -/

/-- C2: every built-in (`to_iri`, `to_literal`, `concat`) is total — as a
Lean function it cannot raise — and ε-propagating: a required operand that
is ε or `None`, or whose shape defeats string extraction (`_to_string`
returning no string), makes the built-in return the ε sentinel; in
particular `concat "Hello" ε = ε`, `to_iri None = ε` and
`to_literal ε d = ε` for every datatype `d`. -/
theorem builtins_total_eps_propagating
    (resolver : String → String → String) (v w : Value) (d b : String) :
    to_iri resolver Value.eps b = Value.eps
    ∧ to_iri resolver Value.null b = Value.eps
    ∧ (_to_string v = Option.none → to_iri resolver v b = Value.eps)
    ∧ to_literal Value.eps d = Value.eps
    ∧ to_literal Value.null d = Value.eps
    ∧ (_to_string v = Option.none → concat v w = Value.eps)
    ∧ (_to_string w = Option.none → concat v w = Value.eps)
    ∧ concat (Value.str "Hello") Value.eps = Value.eps := by
  refine ⟨?_, ?_, ?_, ?_, ?_, ?_, ?_, ?_⟩
  · simp [to_iri]
  · simp [to_iri]
  · intro h
    by_cases hv : v = Value.null ∨ v = Value.eps
    · simp [to_iri, hv]
    · simp [to_iri, hv, h]
  · simp [to_literal]
  · simp [to_literal]
  · intro h
    cases hw : _to_string w <;> simp [concat, h, hw]
  · intro h
    cases hv : _to_string v <;> simp [concat, h, hv]
  · rfl

/-- Witness for C2 at concrete inputs: an integer operand defeats string
extraction for `to_iri` and `concat` on either side, and the quoted
examples hold. -/
theorem builtins_total_eps_propagating_witness :
    to_iri (fun b l => b ++ l) Value.eps "" = Value.eps
    ∧ to_iri (fun b l => b ++ l) Value.null "" = Value.eps
    ∧ to_iri (fun b l => b ++ l) (Value.int 3) "" = Value.eps
    ∧ to_literal Value.eps "http://www.w3.org/2001/XMLSchema#int" = Value.eps
    ∧ concat (Value.int 3) (Value.str "x") = Value.eps
    ∧ concat (Value.str "Hello") (Value.bool true) = Value.eps
    ∧ concat (Value.str "Hello") Value.eps = Value.eps := by
  have h1 := builtins_total_eps_propagating (fun b l => b ++ l) (Value.int 3)
    (Value.str "x") "http://www.w3.org/2001/XMLSchema#int" ""
  have h2 := builtins_total_eps_propagating (fun b l => b ++ l) (Value.str "Hello")
    (Value.bool true) "http://www.w3.org/2001/XMLSchema#int" ""
  exact ⟨h1.1, h1.2.1, h1.2.2.1 rfl, h1.2.2.2.1, h1.2.2.2.2.2.1 rfl,
    h2.2.2.2.2.2.2.1 rfl, h2.2.2.2.2.2.2.2⟩

/-- C5: for a value that is neither ε nor `None`, `to_iri` extracts a string
only from a native string or from a Literal typed exactly xsd:string; a
string containing a colon is wrapped directly as an IRI; otherwise a
supplied (non-empty, hence truthy) base triggers relative resolution via
the resolver (`urllib.parse.urljoin`) and wrapping; otherwise ε. -/
theorem to_iri_branches (resolver : String → String → String) (v : Value) (b s : String)
    (hn : v ≠ Value.null) (he : v ≠ Value.eps) :
    (_to_string v = Option.some s ↔
      (v = Value.str s ∨ v = Value.term (Term.lit s (Option.some xsdString))))
    ∧ (_to_string v = Option.none → to_iri resolver v b = Value.eps)
    ∧ (_to_string v = Option.some s → s.data.contains ':' = true →
        to_iri resolver v b = Value.term (Term.iri s))
    ∧ (_to_string v = Option.some s → s.data.contains ':' = false → b ≠ "" →
        to_iri resolver v b = Value.term (Term.iri (resolver b s)))
    ∧ (_to_string v = Option.some s → s.data.contains ':' = false → b = "" →
        to_iri resolver v b = Value.eps) := by
  have hv : ¬(v = Value.null ∨ v = Value.eps) := by
    rintro (rfl | rfl)
    · exact hn rfl
    · exact he rfl
  refine ⟨⟨?_, ?_⟩, ?_, ?_, ?_, ?_⟩
  · intro h
    cases v with
    | str s' => simp [_to_string] at h; simp [h]
    | int n => simp [_to_string] at h
    | bool bb => simp [_to_string] at h
    | null => simp [_to_string] at h
    | eps => simp [_to_string] at h
    | term t =>
        cases t with
        | iri s' => simp [_to_string] at h
        | blank id => simp [_to_string] at h
        | lit lf dt =>
            by_cases hdt : dt = Option.some xsdString
            · simp [_to_string, hdt] at h
              simp [h, hdt]
            · simp [_to_string, hdt] at h
  · rintro (rfl | rfl) <;> simp [_to_string]
  · intro h
    simp [to_iri, hv, h]
  · intro hs hc
    have hm : ':' ∈ s.data := by simpa using hc
    simp [to_iri, hv, hs, hm]
  · intro hs hc hb
    have hm : ':' ∉ s.data := by simpa using hc
    simp [to_iri, hv, hs, hm, hb]
  · intro hs hc hb
    have hm : ':' ∉ s.data := by simpa using hc
    simp [to_iri, hv, hs, hm, hb]

/-- Witness for C5 at concrete inputs: a colon-bearing string is wrapped
directly, a relative string resolves against a non-empty base, and a
relative string with no base degrades to ε. -/
theorem to_iri_branches_witness :
    to_iri (fun b l => b ++ l) (Value.str "http://ex/a") "" = Value.term (Term.iri "http://ex/a")
    ∧ to_iri (fun b l => b ++ l) (Value.str "rel") "http://ex/" = Value.term (Term.iri "http://ex/rel")
    ∧ to_iri (fun b l => b ++ l) (Value.str "rel") "" = Value.eps
    ∧ to_iri (fun b l => b ++ l) (Value.int 5) "http://ex/" = Value.eps := by
  refine ⟨?_, ?_, ?_, ?_⟩
  · exact (to_iri_branches (fun b l => b ++ l) (Value.str "http://ex/a") "" "http://ex/a"
      (by decide) (by decide)).2.2.1 rfl (by decide)
  · exact (to_iri_branches (fun b l => b ++ l) (Value.str "rel") "http://ex/" "rel"
      (by decide) (by decide)).2.2.2.1 rfl (by decide) (by decide)
  · exact (to_iri_branches (fun b l => b ++ l) (Value.str "rel") "" "rel"
      (by decide) (by decide)).2.2.2.2 rfl (by decide) rfl
  · exact (to_iri_branches (fun b l => b ++ l) (Value.int 5) "http://ex/" ""
      (by decide) (by decide)).2.1 rfl

/-- C4: executing a Union of a non-empty child list is exactly the
concatenation of the children's outputs in list order (bag semantics:
lengths add up, so duplicates are retained, and no schema check exists —
the children are arbitrary relations). -/
theorem union_bag_concatenation (ops : List (List Tup)) (h : ops ≠ []) :
    (UnionOperator.mk ops).execute = ops.flatten
    ∧ ((UnionOperator.mk ops).execute).length = (ops.map List.length).sum := by
  have he : (UnionOperator.mk ops).execute = ops.flatten := by
    simpa [UnionOperator.execute] using foldl_append_eq_flatten ops []
  refine ⟨he, ?_⟩
  rw [he]
  induction ops with
  | nil => rfl
  | cons r rs ih => simp_all

/-- Witness for C4: two identical single-tuple children yield two equal
tuples, not one. -/
theorem union_bag_concatenation_witness :
    (UnionOperator.mk [[[("a", Value.int 1)]], [[("a", Value.int 1)]]]).execute
        = [[[("a", Value.int 1)]], [[("a", Value.int 1)]]].flatten
    ∧ ((UnionOperator.mk [[[("a", Value.int 1)]], [[("a", Value.int 1)]]]).execute).length
        = ([[[("a", Value.int 1)]], [[("a", Value.int 1)]]].map List.length).sum :=
  union_bag_concatenation [[[("a", Value.int 1)]], [[("a", Value.int 1)]]] (by decide)

/-- C10: the UnionOperator constructor stores an empty child list without
any validation, and executing it returns the empty relation. -/
theorem union_accepts_empty_children :
    (UnionOperator.mk ([] : List (List Tup))).execute = [] := rfl

/-- C9: a Source with an empty attribute mapping emits exactly one empty
tuple per selected context (the nullary Cartesian product has one element),
so the result length is the number of contexts. -/
theorem source_empty_mapping {Doc Ctx : Type} (it : Doc → String → List Ctx)
    (ex : Ctx → String → List Value) (D : Doc) (q : String) :
    sourceExecute it ex D q [] = (it D q).map (fun _ => ([] : Tup))
    ∧ (sourceExecute it ex D q []).length = (it D q).length := by
  have h : ∀ cs : List Ctx, cs.flatMap (fun _ => ([[]] : List Tup))
      = cs.map (fun _ => ([] : Tup)) := by
    intro cs
    induction cs with
    | nil => rfl
    | cons c cs ih => simp [ih]
  constructor
  · simpa [sourceExecute, listProd] using h (it D q)
  · simp [sourceExecute, listProd, h (it D q)]

/-- C7: the fluent convenience `extend` returns a new Extend operator
wrapping the receiver as its parent (the receiver is a value and remains
unchanged), and its execution is exactly Extend's. -/
theorem operator_fluent_extend (o : Op) (name : String) (e : Expr) :
    Op.extend o name e = Op.ext o name e
    ∧ (Op.extend o name e).execute = extendExecute (Op.execute o) name e :=
  ⟨rfl, rfl⟩

/-- C3: Extend over any parent operator emits, in parent order, freshly
constructed tuples — each one the parent tuple's bindings followed by the
new attribute — and the parent's own output is untouched: every binding of
the original tuple is still reachable in it, and re-executing the parent
(in this pure embedding, `Op.execute parent` evaluated again) still yields
tuples without the new key when the parent does not produce it. -/
theorem extend_never_mutates_parent (p : Op) (a : String) (e : Expr)
    (h : ∀ t ∈ Op.execute p, containsKey t a = false) :
    Op.execute (Op.ext p a e)
        = (Op.execute p).map (fun t => mtCopy t ++ [(a, evalExpr e t)])
    ∧ (∀ t ∈ Op.execute p, ∀ k, k ≠ a →
        lookupKey (mtCopy t ++ [(a, evalExpr e t)]) k = lookupKey t k)
    ∧ ∀ t ∈ Op.execute p, containsKey t a = false := by
  refine ⟨?_, ?_, h⟩
  · show extendExecute (Op.execute p) a e = _
    unfold extendExecute
    refine List.map_congr_left ?_
    intro t ht
    simp only [mtCopy]
    exact setKey_of_not_containsKey t a (evalExpr e t) (h t ht)
  · intro t ht k hk
    have h1 := lookupKey_setKey_ne t a k (evalExpr e t) hk
    rw [setKey_of_not_containsKey t a (evalExpr e t) (h t ht)] at h1
    simpa [mtCopy] using h1

/-- Witness for C3 with a one-tuple parent lacking the key "x". -/
theorem extend_never_mutates_parent_witness :
    Op.execute (Op.ext (Op.base [[("n", Value.int 1)]]) "x" (Expr.const (Value.int 7)))
        = (Op.execute (Op.base [[("n", Value.int 1)]])).map
            (fun t => mtCopy t ++ [("x", evalExpr (Expr.const (Value.int 7)) t)])
    ∧ (∀ t ∈ Op.execute (Op.base [[("n", Value.int 1)]]), ∀ k, k ≠ "x" →
        lookupKey (mtCopy t ++ [("x", evalExpr (Expr.const (Value.int 7)) t)]) k
          = lookupKey t k)
    ∧ ∀ t ∈ Op.execute (Op.base [[("n", Value.int 1)]]), containsKey t "x" = false :=
  extend_never_mutates_parent (Op.base [[("n", Value.int 1)]]) "x"
    (Expr.const (Value.int 7)) (by decide)

/-- C8: Extend evaluates its expression against the ORIGINAL tuple: when
the extended attribute already has a binding, a Reference to it inside the
expression observes the old value, while the emitted tuple carries the
newly computed value for that attribute and keeps every other binding. -/
theorem extend_evaluates_against_original (t : Tup) (a : String) (vold : Value)
    (hold : lookupKey t a = Option.some vold) :
    evalExpr (Expr.ref a) t = vold
    ∧ (∀ e : Expr, extendExecute [t] a e = [setKey (mtCopy t) a (evalExpr e t)])
    ∧ (∀ f : List Value → Value,
        extendExecute [t] a (Expr.call f [Expr.ref a]) = [setKey t a (f [vold])]
        ∧ lookupKey (setKey t a (f [vold])) a = Option.some (f [vold])
        ∧ ∀ k, k ≠ a → lookupKey (setKey t a (f [vold])) k = lookupKey t k) := by
  have h1 : evalExpr (Expr.ref a) t = vold := by simp [evalExpr, hold]
  refine ⟨h1, fun e => rfl, fun f => ⟨?_, lookupKey_setKey_self t a (f [vold]), ?_⟩⟩
  · simp [extendExecute, mtCopy, evalExpr, evalArgs, hold]
  · intro k hk
    exact lookupKey_setKey_ne t a k (f [vold]) hk

/-- Witness for C8: the tuple binds "a" to 1; the expression wraps a
Reference to "a" in a function; the reference observes 1 and the emitted
tuple binds "a" to the function's result while keeping "b". -/
theorem extend_evaluates_against_original_witness :
    evalExpr (Expr.ref "a") [("a", Value.int 1), ("b", Value.str "q")] = Value.int 1
    ∧ extendExecute [[("a", Value.int 1), ("b", Value.str "q")]] "a"
        (Expr.call (fun vs => Value.str (String.join (vs.map pyStr) ++ "!")) [Expr.ref "a"])
        = [setKey [("a", Value.int 1), ("b", Value.str "q")] "a"
            ((fun vs => Value.str (String.join (vs.map pyStr) ++ "!")) [Value.int 1])]
    ∧ lookupKey (setKey [("a", Value.int 1), ("b", Value.str "q")] "a"
          ((fun vs => Value.str (String.join (vs.map pyStr) ++ "!")) [Value.int 1])) "a"
        = Option.some ((fun vs => Value.str (String.join (vs.map pyStr) ++ "!")) [Value.int 1])
    ∧ lookupKey (setKey [("a", Value.int 1), ("b", Value.str "q")] "a"
          ((fun vs => Value.str (String.join (vs.map pyStr) ++ "!")) [Value.int 1])) "b"
        = lookupKey [("a", Value.int 1), ("b", Value.str "q")] "b" := by
  have h := extend_evaluates_against_original
    [("a", Value.int 1), ("b", Value.str "q")] "a" (Value.int 1) rfl
  have hf := h.2.2 (fun vs => Value.str (String.join (vs.map pyStr) ++ "!"))
  exact ⟨h.1, hf.1, hf.2.1, hf.2.2 "b" (by decide)⟩

/-- C1: `SourceOperator.execute` emits, for each selected context in
selector order (all contexts' emissions concatenated in that order), one
tuple per element of the Cartesian product of the per-attribute extracted
value lists, attributes taken in the mapping's declaration order and each
attribute bound to its component of the product element; consequently a
context's emission count is the product of its per-attribute list sizes
(6 for sizes [2,3]), an empty list for any attribute contributes 0 tuples
for that context, and duplicate-free value lists give pairwise-distinct
tuples. -/
theorem source_cartesian_product {Doc Ctx : Type} (it : Doc → String → List Ctx)
    (ex : Ctx → String → List Value) (D : Doc) (q : String)
    (M : List (String × String)) :
    sourceExecute it ex D q M
      = (it D q).flatMap (fun c =>
          (listProd (M.map (fun p => ex c p.snd))).map
            (fun comb => List.zip (M.map Prod.fst) comb))
    ∧ (∀ c : Ctx,
        ((listProd (M.map (fun p => ex c p.snd))).map
            (fun comb => List.zip (M.map Prod.fst) comb)).length
          = (M.map (fun p => (ex c p.snd).length)).prod)
    ∧ (∀ c : Ctx, (∃ p ∈ M, ex c p.snd = []) →
        (listProd (M.map (fun p => ex c p.snd))).map
            (fun comb => List.zip (M.map Prod.fst) comb) = [])
    ∧ (∀ c : Ctx, (∀ p ∈ M, (ex c p.snd).Nodup) →
        ((listProd (M.map (fun p => ex c p.snd))).map
            (fun comb => List.zip (M.map Prod.fst) comb)).Nodup) := by
  refine ⟨rfl, ?_, ?_, ?_⟩
  · intro c
    simp [listProd_length, List.map_map, Function.comp_def]
  · intro c hx
    obtain ⟨p, hp, hnil⟩ := hx
    have hmem : ex c p.snd ∈ M.map (fun p => ex c p.snd) :=
      List.mem_map_of_mem _ hp
    rw [listProd_eq_nil hmem hnil]
    rfl
  · intro c h
    refine List.Nodup.map_on ?_ (listProd_nodup ?_)
    · intro x hx y hy hxy
      have hxl : x.length = (M.map Prod.fst).length := by
        simpa using listProd_mem_length hx
      have hyl : y.length = (M.map Prod.fst).length := by
        simpa using listProd_mem_length hy
      exact zip_right_injective (M.map Prod.fst) x y hxl hyl hxy
    · intro l hl
      obtain ⟨p, hp, rfl⟩ := List.mem_map.mp hl
      exact h p hp

/-- Extraction oracle used only by the witness for C1: attribute selector
"qa" hits two values, "qb" three, anything else none. -/
def exW : Unit → String → List Value := fun _ s =>
  if s = "qa" then [Value.int 1, Value.int 2]
  else if s = "qb" then [Value.int 10, Value.int 20, Value.int 30]
  else []

/-- Witness for C1 over one context: value lists of sizes [2,3] give
exactly 6 pairwise-distinct tuples, and an attribute with an empty value
list gives that context 0 tuples. -/
theorem source_cartesian_product_witness :
    ((listProd ([("a", "qa"), ("b", "qb")].map (fun p => exW () p.snd))).map
        (fun comb => List.zip ([("a", "qa"), ("b", "qb")].map Prod.fst) comb)).length = 6
    ∧ ((listProd ([("a", "qa"), ("b", "qb")].map (fun p => exW () p.snd))).map
        (fun comb => List.zip ([("a", "qa"), ("b", "qb")].map Prod.fst) comb)).Nodup
    ∧ (listProd ([("a", "qa"), ("c", "qz")].map (fun p => exW () p.snd))).map
        (fun comb => List.zip ([("a", "qa"), ("c", "qz")].map Prod.fst) comb) = []
    ∧ sourceExecute (fun _ _ => [()]) exW () "$" [("a", "qa"), ("b", "qb")]
        = ([()] : List Unit).flatMap (fun c =>
            (listProd ([("a", "qa"), ("b", "qb")].map (fun p => exW c p.snd))).map
              (fun comb => List.zip ([("a", "qa"), ("b", "qb")].map Prod.fst) comb)) := by
  have h := source_cartesian_product (fun _ _ => [()]) exW () "$" [("a", "qa"), ("b", "qb")]
  have h0 := source_cartesian_product (fun _ _ => [()]) exW () "$" [("a", "qa"), ("c", "qz")]
  refine ⟨(h.2.1 ()).trans (by decide), h.2.2.2 () (by decide), ?_, h.1⟩
  exact h0.2.2.1 () ⟨("c", "qz"), by decide, rfl⟩

/-- Requested attributes all present in a tuple leave nothing missing. -/
lemma missingAttrs_eq_nil (P : List String) (u : Tup)
    (h : ∀ a ∈ P, containsKey u a = true) : missingAttrs P u = [] := by
  refine List.filter_eq_nil_iff.mpr ?_
  intro a ha
  simp [h a ha]

/-- Restriction to a superset of a tuple's own keys is the identity. -/
lemma restrictTup_eq_self (t : Tup) (P : List String)
    (h : ∀ kv ∈ t, kv.fst ∈ P) : restrictTup t P = t := by
  refine List.filter_eq_self.mpr ?_
  intro kv hkv
  simpa using h kv hkv

/-- When every tuple passes validation, Project restricts each tuple in
order. -/
lemma projectExecute_ok (P : List String) :
    ∀ rows : List Tup, (∀ u ∈ rows, missingAttrs P u = []) →
      projectExecute rows P = Except.ok (rows.map (fun u => restrictTup u P)) := by
  intro rows
  induction rows with
  | nil => intro _; rfl
  | cons u rest ih =>
      intro h
      have hu : missingAttrs P u = [] := h u (List.mem_cons_self u rest)
      have hrest := ih (fun w hw => h w (List.mem_cons_of_mem u hw))
      simp [projectExecute, hu, hrest]

/-- The first tuple failing validation aborts Project with the list of its
missing attributes. -/
lemma projectExecute_error_first (P : List String) :
    ∀ (pre : List Tup) (t : Tup) (post : List Tup),
      (∀ u ∈ pre, missingAttrs P u = []) → missingAttrs P t ≠ [] →
      projectExecute (pre ++ t :: post) P = Except.error (missingAttrs P t) := by
  intro pre
  induction pre with
  | nil =>
      intro t post _ hm
      cases hmm : missingAttrs P t with
      | nil => exact absurd hmm hm
      | cons a as => simp [projectExecute, hmm]
  | cons u pre ih =>
      intro t post hpre hm
      have hu : missingAttrs P u = [] := hpre u (List.mem_cons_self u pre)
      have hrec := ih t post (fun w hw => hpre w (List.mem_cons_of_mem u hw)) hm
      simp [projectExecute, hu, hrec]

/-- C6: Project validates PER TUPLE: as soon as any tuple lacks a requested
attribute it raises a structural error naming exactly the requested
attributes absent from that (first offending) tuple — it never drops the
tuple or degrades to ε — and when the requested set is the full attribute
set of every parent tuple the result is the parent relation itself, order
and multiplicity intact. -/
theorem project_fail_fast_and_identity (P : List String) (hP : P ≠ []) :
    (∀ (pre : List Tup) (t : Tup) (post : List Tup),
        (∀ u ∈ pre, missingAttrs P u = []) → missingAttrs P t ≠ [] →
        projectExecute (pre ++ t :: post) P = Except.error (missingAttrs P t))
    ∧ (∀ rows : List Tup, (∀ u ∈ rows, missingAttrs P u = []) →
        projectExecute rows P = Except.ok (rows.map (fun u => restrictTup u P)))
    ∧ (∀ rows : List Tup,
        (∀ u ∈ rows, (∀ a ∈ P, containsKey u a = true) ∧ ∀ kv ∈ u, kv.fst ∈ P) →
        projectExecute rows P = Except.ok rows) := by
  refine ⟨projectExecute_error_first P, projectExecute_ok P, ?_⟩
  intro rows h
  have hok := projectExecute_ok P rows
    (fun u hu => missingAttrs_eq_nil P u (h u hu).1)
  rw [hok]
  congr 1
  calc rows.map (fun u => restrictTup u P)
      = rows.map id := List.map_congr_left (fun u hu => restrictTup_eq_self u P (h u hu).2)
    _ = rows := List.map_id rows

/-- Witness for C6: requesting {"a","missing"} over tuples carrying only
"a" and "b" errors naming exactly "missing"; requesting the tuples' full
attribute set returns them unchanged. -/
theorem project_fail_fast_and_identity_witness :
    projectExecute ([] ++ [("a", Value.int 1), ("b", Value.int 2)] :: []) ["a", "missing"]
        = Except.error (missingAttrs ["a", "missing"] [("a", Value.int 1), ("b", Value.int 2)])
    ∧ missingAttrs ["a", "missing"] [("a", Value.int 1), ("b", Value.int 2)] = ["missing"]
    ∧ projectExecute [[("a", Value.int 1), ("b", Value.int 2)],
          [("a", Value.int 1), ("b", Value.int 2)]] ["a", "b"]
        = Except.ok [[("a", Value.int 1), ("b", Value.int 2)],
          [("a", Value.int 1), ("b", Value.int 2)]] := by
  have h := project_fail_fast_and_identity ["a", "missing"] (by decide)
  have h2 := project_fail_fast_and_identity ["a", "b"] (by decide)
  refine ⟨h.1 [] [("a", Value.int 1), ("b", Value.int 2)] [] (by simp) (by decide), by decide, ?_⟩
  exact h2.2.2 [[("a", Value.int 1), ("b", Value.int 2)],
    [("a", Value.int 1), ("b", Value.int 2)]] (by decide)

end Pyhartig
